import Mathlib

/-!
Shallow embedding of the card-stack quiz core of the intimacy-playbook
repository: the `smartShuffle` category-fair shuffling algorithm, the slide
navigator (`nextQuestion` / `prevQuestion` and the index clamp), the
pointer/touch gesture trackers of `QuizApp`, `StackedCards`, `IntroSlide` and
`QuizCard`, and the quote-aware CSV parser `parseCSV` together with the
row-to-record mapping of `fetchQuestions`.

Randomness (`Math.random`-driven shuffles) is modelled by an explicit
`Shuffler` oracle; a `Shuffler.Lawful` oracle returns permutations of its
argument, which is what every JavaScript engine's `Array.prototype.sort`
guarantees regardless of the comparator.  Pixel coordinates (JS numbers) are
modelled as rationals.
-/

namespace IntimacyPlaybook

/-- Depth of a question record, `'light' | 'deep'` in the source. -/
inductive Depth where
| light
| deep
deriving DecidableEq, Repr

/-- The `Question` record of `QuizApp.tsx`: prompt text, category label,
derived depth and content type (`"Frage"` by default). -/
structure Question where
  question : String
  category : String
  depth : Depth
  type : String
deriving DecidableEq, Repr

/-! ## smartShuffle (QuizApp.tsx lines 20-62)

The JS groups questions into an object keyed by category (string keys keep
insertion order), shuffles within each group, then repeatedly passes over a
per-round shuffled category list, emitting each category's next unconsumed
record, until all records are emitted. -/

/-- One step of building `categorizedQuestions`: append `q` to its category's
group, first-seen key order preserved (JS object string-key order). -/
def insertGrouped (groups : List (String × List Question)) (q : Question) :
    List (String × List Question) :=
  match groups with
  | [] => [(q.category, [q])]
  | (c, qs) :: rest =>
    if c = q.category then (c, qs ++ [q]) :: rest
    else (c, qs) :: insertGrouped rest q

/-- `categorizedQuestions`: group the input by category. -/
def categorize (questions : List Question) : List (String × List Question) :=
  questions.foldl insertGrouped []

/-- Oracle for the two uses of `Math.random`-based sorting in `smartShuffle`:
the within-group shuffle and the per-round category shuffle. -/
structure Shuffler where
  shuffleGroup : String → List Question → List Question
  shuffleCategories : Nat → List String → List String

/-- A lawful oracle returns a permutation of its argument, as
`Array.prototype.sort` does for any comparator. -/
def Shuffler.Lawful (r : Shuffler) : Prop :=
  (∀ c l, (r.shuffleGroup c l).Perm l) ∧ (∀ n l, (r.shuffleCategories n l).Perm l)

/-- Exact-key association-list lookup with default, modelling JS object
indexing `obj[key]`. -/
def lookupD {β : Type} (l : List (String × β)) (c : String) (d : β) : β :=
  match l with
  | [] => d
  | (c', v) :: rest => if c' = c then v else lookupD rest c d

/-- `categoryCounters[category]++`: bump the entry for `cat`. -/
def bumpCounter : List (String × Nat) → String → List (String × Nat)
  | [], _ => []
  | (c, k) :: rest, cat =>
    if c = cat then (c, k + 1) :: rest else (c, k) :: bumpCounter rest cat

/-- The inner `for (const category of shuffledCategories)` pass of
`smartShuffle`: emit each visited category's next unconsumed record (if any),
breaking out as soon as `result.length >= questions.length`. -/
def distributeRound (total : Nat) (groups : List (String × List Question)) :
    List String → List Question × List (String × Nat) →
    List Question × List (String × Nat)
  | [], st => st
  | category :: rest, (result, counters) =>
    let categoryQuestions := lookupD groups category []
    let counter := lookupD counters category 0
    if h : counter < categoryQuestions.length then
      let result' := result ++ [categoryQuestions.get ⟨counter, h⟩]
      let counters' := bumpCounter counters category
      if total ≤ result'.length then (result', counters')
      else distributeRound total groups rest (result', counters')
    else distributeRound total groups rest (result, counters)

/-- The outer `while (result.length < questions.length)` loop, fuel-indexed to
make it a total Lean function; `smartShuffle_fuel_eq` below shows
`questions.length` rounds of fuel always suffice for a lawful oracle, which is
the formal content of the loop's termination. -/
def distributeRounds (r : Shuffler) (total : Nat)
    (groups : List (String × List Question)) (categories : List String) :
    Nat → Nat → List Question × List (String × Nat) →
    List Question × List (String × Nat)
  | 0, _, st => st
  | fuel + 1, round, st =>
    if st.1.length < total then
      distributeRounds r total groups categories fuel (round + 1)
        (distributeRound total groups (r.shuffleCategories round categories) st)
    else st

/-- `smartShuffle` with an explicit round budget. -/
def smartShuffleFuel (r : Shuffler) (fuel : Nat) (questions : List Question) :
    List Question :=
  let categorizedQuestions :=
    (categorize questions).map fun g => (g.1, r.shuffleGroup g.1 g.2)
  let categories := categorizedQuestions.map (·.1)
  let categoryCounters : List (String × Nat) := categories.map fun c => (c, 0)
  (distributeRounds r questions.length categorizedQuestions categories fuel 0
    ([], categoryCounters)).1

/-- The smart shuffle algorithm of `QuizApp.tsx`. -/
def smartShuffle (r : Shuffler) (questions : List Question) : List Question :=
  smartShuffleFuel r questions.length questions

/-! ## Slide navigator (QuizApp.tsx lines 331-341, 384-395)

`currentIndex` is a JS number, modelled as an integer; `slides.length` is a
natural number.  `slides.length - 1` in JS is `-1` for an empty array, which
the `Int` subtraction reproduces. -/

/-- `nextQuestion`: advance if `currentIndex < slides.length - 1`. -/
def nextQuestion (len : Nat) (i : Int) : Int :=
  if i < (len : Int) - 1 then i + 1 else i

/-- `prevQuestion`: retreat if `currentIndex > 0`. -/
def prevQuestion (i : Int) : Int :=
  if 0 < i then i - 1 else i

/-- The bounds invariant of the navigation position: inside
`[0, slides.length - 1]` when slides exist, pinned to `0` otherwise. -/
def navInvariant (len : Nat) (i : Int) : Prop :=
  (0 ≤ i ∧ i ≤ (len : Int) - 1) ∨ (len = 0 ∧ i = 0)

/-- A navigation operation: right-arrow / forward commit, or left-arrow. -/
inductive NavOp where
| advance
| retreat
deriving DecidableEq, Repr

/-- Apply one navigation operation. -/
def applyNavOp (len : Nat) (i : Int) : NavOp → Int
  | .advance => nextQuestion len i
  | .retreat => prevQuestion i

/-- Run a finite sequence of navigation operations. -/
def runNav (len : Nat) (ops : List NavOp) (i : Int) : Int :=
  ops.foldl (applyNavOp len) i

/-- The clamp applied whenever `slides` is replaced
(`setCurrentIndex ((i) => (slides.length ? Math.min(i, slides.length - 1) : 0))`,
and identically `safeIndex`). -/
def clampIndex (len : Nat) (i : Int) : Int :=
  if len ≠ 0 then min i ((len : Int) - 1) else 0

instance (len : Nat) (i : Int) : Decidable (navInvariant len i) := by
  unfold navInvariant
  infer_instance

end IntimacyPlaybook

namespace IntimacyPlaybook.QuizApp

/-- Drag state of the document-level tracker in `QuizApp.tsx`
(`isDragging`, `dragStart`, `dragOffset`). -/
structure AppDragState where
  isDragging : Bool
  startX : ℚ
  startY : ℚ
  offX : ℚ
  offY : ℚ
deriving DecidableEq, Repr

/-- `handleStart`: begin a drag at `(x, y)` with zero offset. -/
def handleStart (x y : ℚ) (_s : AppDragState) : AppDragState :=
  { isDragging := true, startX := x, startY := y, offX := 0, offY := 0 }

/-- `handleMove`: ignored when idle, else records the delta from the start. -/
def handleMove (x y : ℚ) (s : AppDragState) : AppDragState :=
  if s.isDragging then
    { s with offX := x - s.startX, offY := y - s.startY }
  else s

/-- `handleEnd`: ignored when idle; otherwise decides the commit from the end
event's delta against the 200-unit threshold
(`Math.abs(deltaX) > threshold || Math.abs(deltaY) > threshold`), then resets.
The boolean reports whether `nextQuestion()` was invoked. -/
def handleEnd (x y : ℚ) (s : AppDragState) : AppDragState × Bool :=
  if s.isDragging then
    ({ s with isDragging := false, offX := 0, offY := 0 },
      decide (200 < |x - s.startX| ∨ 200 < |y - s.startY|))
  else (s, false)

end IntimacyPlaybook.QuizApp

namespace IntimacyPlaybook.StackedCards

/-- Drag state of `StackedCards.tsx`. -/
structure CardsDragState where
  isDragging : Bool
  startX : ℚ
  startY : ℚ
  currentX : ℚ
  currentY : ℚ
deriving DecidableEq, Repr

/-- `handlePointerStart`. -/
def handlePointerStart (x y : ℚ) (_s : CardsDragState) : CardsDragState :=
  { isDragging := true, startX := x, startY := y, currentX := 0, currentY := 0 }

/-- `handlePointerMove`. -/
def handlePointerMove (x y : ℚ) (s : CardsDragState) : CardsDragState :=
  if s.isDragging then
    { s with currentX := x - s.startX, currentY := y - s.startY }
  else s

/-- `handlePointerEnd`: the source compares
`Math.sqrt(currentX ** 2 + currentY ** 2) > minDragDistance` with
`minDragDistance = 100`; over nonnegative exact arithmetic this holds iff
`currentX ^ 2 + currentY ^ 2 > 100 ^ 2` (see `sqrt_commit_iff` below), which
is the executable form used here.  The boolean reports whether
`onCardRemoved()` fired; the state always resets. -/
def handlePointerEnd (s : CardsDragState) : CardsDragState × Bool :=
  if s.isDragging then
    ({ isDragging := false, startX := 0, startY := 0, currentX := 0, currentY := 0 },
      decide ((100 : ℚ) ^ 2 < s.currentX ^ 2 + s.currentY ^ 2))
  else (s, false)

end IntimacyPlaybook.StackedCards

namespace IntimacyPlaybook.Part002

/-- Direction of a committed one-dimensional swipe in the
`src/unnamed/part_002` variant of `QuizApp`: `deltaX > 0` fires
`prevQuestion()` (backward), otherwise `nextQuestion()` (forward). -/
inductive Commit1D where
| forward
| backward
deriving DecidableEq, Repr

/-- `handleEnd` of `src/unnamed/part_002` (lines 95-111): commit only when
`Math.abs(deltaX) > Math.abs(deltaY) && Math.abs(deltaX) > 50`, with the
direction given by the sign of `deltaX`. -/
def handleEnd1D (deltaX deltaY : ℚ) : Option Commit1D :=
  if |deltaY| < |deltaX| ∧ 50 < |deltaX| then
    if 0 < deltaX then some .backward else some .forward
  else none

end IntimacyPlaybook.Part002

namespace IntimacyPlaybook.IntroSlide

/-- The two swipe callbacks of `IntroSlide.tsx`. -/
inductive Swipe where
| left
| right
deriving DecidableEq, Repr

/-- The fallback `onTouchEnd` / `onMouseUp` decision of `IntroSlide.tsx`:
commit only if horizontal movement dominates and exceeds
`minSwipeDistance = 50`; positive `deltaX` fires `onSwipeRight`. -/
def swipeDecision (deltaX deltaY : ℚ) : Option Swipe :=
  if |deltaY| < |deltaX| ∧ 50 < |deltaX| then
    if 0 < deltaX then some .right else some .left
  else none

end IntimacyPlaybook.IntroSlide

namespace IntimacyPlaybook.QuizCard

/-- The two swipe callbacks of `QuizCard.tsx`. -/
inductive Swipe where
| left
| right
deriving DecidableEq, Repr

/-- Touch state of the fallback handlers in `QuizCard.tsx`:
`touchStart` / `touchEnd` are `number | null`. -/
structure TouchState where
  touchStart : Option ℚ
  touchEnd : Option ℚ
deriving DecidableEq, Repr

/-- `onTouchStart` (fallback branch): `setTouchEnd(null); setTouchStart(x)`. -/
def onTouchStartQC (x : ℚ) (_s : TouchState) : TouchState :=
  { touchStart := some x, touchEnd := none }

/-- `onTouchMove` (fallback branch): `setTouchEnd(x)`. -/
def onTouchMoveQC (x : ℚ) (s : TouchState) : TouchState :=
  { s with touchEnd := some x }

/-- `onTouchEnd` (fallback branch): `if (!touchStart || !touchEnd) return;`
(JS falsiness: `null` or `0`), else swipe when
`|touchStart - touchEnd| > minSwipeDistance = 50`. -/
def onTouchEndQC (s : TouchState) : Option Swipe :=
  match s.touchStart, s.touchEnd with
  | some a, some b =>
    if a = 0 ∨ b = 0 then none
    else if 50 < a - b then some .left
    else if a - b < -50 then some .right
    else none
  | _, _ => none

end IntimacyPlaybook.QuizCard

namespace IntimacyPlaybook

/-! ## CSV parser (QuizApp.tsx lines 201-248) and row mapping (252-275) -/

/-- JS `String.prototype.trim`, at the character-list level. -/
def jsTrim (s : String) : String :=
  ⟨((s.data.dropWhile Char.isWhitespace).reverse.dropWhile Char.isWhitespace).reverse⟩

/-- JS `String.prototype.toLowerCase` (ASCII, which covers the sentinels). -/
def jsToLower (s : String) : String :=
  ⟨s.data.map Char.toLower⟩

/-- Push the pending field onto the row and, if any field of the row is
non-empty, the row onto the result (the shared tail of the row-separator
branch and the end-of-scan flush). -/
def parseCSVPushRow (current : String) (row : List String)
    (result : List (List String)) : List (List String) :=
  let row' := row ++ [jsTrim current]
  if row'.any fun f => 0 < f.length then result ++ [row'] else result

/-- End-of-scan flush: `if (current.trim() || row.length > 0)`. -/
def parseCSVFlush (current : String) (row : List String)
    (result : List (List String)) : List (List String) :=
  if jsTrim current ≠ "" ∨ row ≠ [] then parseCSVPushRow current row result
  else result

/-- The quote-aware single scan of `parseCSV`.  A quote immediately followed
by a second quote while inside quotes emits one literal quote and skips the
second character; otherwise a quote toggles `inQuotes`.  Commas and line
breaks split fields/rows only outside quotes. -/
def parseCSVAux : List Char → Bool → String → List String →
    List (List String) → List (List String)
  | [], _, current, row, result => parseCSVFlush current row result
  | '"' :: '"' :: rest, true, current, row, result =>
    parseCSVAux rest true (current.push '"') row result
  | '"' :: rest, inQuotes, current, row, result =>
    parseCSVAux rest (!inQuotes) current row result
  | c :: rest, inQuotes, current, row, result =>
    if c = ',' ∧ inQuotes = false then
      parseCSVAux rest inQuotes ("") (row ++ [jsTrim current]) result
    else if (c = '\n' ∨ c = '\r') ∧ inQuotes = false then
      if jsTrim current ≠ "" ∨ row ≠ [] then
        parseCSVAux rest inQuotes ("") [] (parseCSVPushRow current row result)
      else parseCSVAux rest inQuotes current row result
    else parseCSVAux rest inQuotes (current.push c) row result

/-- `parseCSV` of `QuizApp.tsx`. -/
def parseCSV (csvText : String) : List (List String) :=
  parseCSVAux csvText.data false ("") [] []

/-- Does `s` start with `pat`? (char-list level). -/
def listStarts : List Char → List Char → Bool
  | _, [] => true
  | [], _ :: _ => false
  | a :: s, b :: p => a == b && listStarts s p

/-- JS `String.prototype.includes`, at the character-list level. -/
def listHasSub : List Char → List Char → Bool
  | [], p => listStarts [] p
  | s@(_ :: s'), p => listStarts s p || listHasSub s' p

/-- The header test of `fetchQuestions`:
`values[0]?.toLowerCase().includes('categor') || values[1]?.toLowerCase().includes('question')`. -/
def isHeaderRow (values : List String) : Bool :=
  listHasSub (jsToLower (values.getD 0 (""))).data ("categor").data ||
    listHasSub (jsToLower (values.getD 1 (""))).data ("question").data

/-- Row-to-record mapping: a row needs at least two non-empty leading fields;
field 1 is the category, field 2 the text, depth is `deep` iff the category is
`aktion` (case-insensitive), and the type defaults to `"Frage"` when the third
field is absent or empty (JS `values[2] || 'Frage'`). -/
def rowToQuestion (values : List String) : Option Question :=
  if 2 ≤ values.length ∧ values.getD 0 ("") ≠ "" ∧ values.getD 1 ("") ≠ "" then
    some
      { category := values.getD 0 ("")
        question := values.getD 1 ("")
        depth := if jsToLower (values.getD 0 ("")) = "aktion" then .deep else .light
        type := if values.getD 2 ("") = "" then "Frage" else values.getD 2 ("") }
  else none

/-- Is this record's category the intro sentinel (case-insensitive)? -/
def isIntroQ (q : Question) : Bool :=
  jsToLower q.category == "intro"

/-- The per-row loop body of `fetchQuestions`: each usable row becomes a
record; an intro-category record overwrites `introContent`, every other record
is appended to `questions`. -/
def processRowsAux : List (List String) → Option Question → List Question →
    Option Question × List Question
  | [], introContent, questions => (introContent, questions)
  | values :: rest, introContent, questions =>
    match rowToQuestion values with
    | none => processRowsAux rest introContent questions
    | some q =>
      if isIntroQ q then processRowsAux rest (some q) questions
      else processRowsAux rest introContent (questions ++ [q])

/-- The data rows: row 0 is skipped iff it resembles a header. -/
def dataRows (rows : List (List String)) : List (List String) :=
  match rows with
  | [] => []
  | r0 :: rest => if isHeaderRow r0 then rest else r0 :: rest

/-- The full row-processing stage of `fetchQuestions`, returning
`(introContent, questions)`. -/
def processRows (rows : List (List String)) : Option Question × List Question :=
  processRowsAux (dataRows rows) none []

/-- The last element of `l` if any, else `d` (used to characterise the
repeated overwriting of `introContent`). -/
def lastOr (l : List Question) (d : Option Question) : Option Question :=
  match l with
  | [] => d
  | a :: rest => lastOr rest (some a)

/-! ## Specification measures for the smartShuffle loop -/

/-- Keys of an association list. -/
def keysOf {β : Type} (l : List (String × β)) : List String :=
  l.map (·.1)

/-- The records emitted so far according to the counters: for each group in
order, its first `counter` entries. -/
def takenOf (groups : List (String × List Question))
    (counters : List (String × Nat)) : List Question :=
  (groups.map fun g => g.2.take (lookupD counters g.1 0)).flatten

/-- Sum of the counters, indexed over the groups. -/
def sumTaken (groups : List (String × List Question))
    (counters : List (String × Nat)) : Nat :=
  (groups.map fun g => lookupD counters g.1 0).sum

/-- Sum of the group sizes. -/
def sumLens (groups : List (String × List Question)) : Nat :=
  (groups.map fun g => g.2.length).sum

/-- The invariant of the `while` loop of `smartShuffle`: the counters mirror
the group keys, never exceed the group sizes, and `result` is (a permutation
of) exactly the records the counters say have been consumed. -/
structure LoopInv (groups : List (String × List Question))
    (result : List Question) (counters : List (String × Nat)) : Prop where
  keys_eq : keysOf counters = keysOf groups
  bounds : ∀ g ∈ groups, lookupD counters g.1 0 ≤ g.2.length
  perm : result.Perm (takenOf groups counters)

/-! ## Concrete data for witnesses and counterexamples -/

/-- The identity oracle: a lawful `Shuffler` that shuffles nothing. -/
def idShuffler : Shuffler :=
  ⟨fun _ l => l, fun _ l => l⟩

/-- Sample record, category `A`. -/
def qA1 : Question :=
  { question := "a1", category := "A", depth := .light, type := "Frage" }

/-- Sample record, category `A`. -/
def qA2 : Question :=
  { question := "a2", category := "A", depth := .light, type := "Frage" }

/-- Sample record, category `B`. -/
def qB1 : Question :=
  { question := "b1", category := "B", depth := .light, type := "Frage" }

/-- Sample grouped records for the round-robin witness. -/
def groupsW : List (String × List Question) :=
  [("A", [qA1, qA2]), ("B", [qB1])]

/-- All-zero counters matching `groupsW`. -/
def countersW : List (String × Nat) :=
  [("A", 0), ("B", 0)]

/-- A mid-drag `StackedCards` state at offset (90, 120). -/
def cardsW : StackedCards.CardsDragState :=
  ⟨true, 0, 0, 90, 120⟩

/-- A drag of the `QuizApp` tracker begun at the origin. -/
def appW : QuizApp.AppDragState :=
  ⟨true, 0, 0, 0, 0⟩

end IntimacyPlaybook

namespace IntimacyPlaybook

/-! # Theorems -/

/-! ## Association-list lemmas -/

theorem lookupD_not_mem {β : Type} (l : List (String × β)) (c : String) (d : β)
    (h : c ∉ keysOf l) : lookupD l c d = d := by
  induction l with
  | nil => rfl
  | cons g rest ih =>
    obtain ⟨c', v⟩ := g
    simp only [keysOf, List.map_cons, List.mem_cons, not_or] at h
    simp only [lookupD]
    rw [if_neg fun he => h.1 he.symm]
    exact ih (by simpa [keysOf] using h.2)

theorem mem_keysOf_of_lt (groups : List (String × List Question))
    (counters : List (String × Nat)) (c : String)
    (h : lookupD counters c 0 < (lookupD groups c []).length) :
    c ∈ keysOf groups := by
  by_contra hm
  rw [lookupD_not_mem _ _ _ hm] at h
  simp at h

theorem lookupD_of_mem_nodup {β : Type} (l : List (String × β)) (d : β)
    (hnd : (keysOf l).Nodup) (g : String × β) (hg : g ∈ l) :
    lookupD l g.1 d = g.2 := by
  induction l with
  | nil => cases hg
  | cons e rest ih =>
    obtain ⟨c', v⟩ := e
    simp only [keysOf, List.map_cons, List.nodup_cons] at hnd
    rcases List.mem_cons.mp hg with he | he
    · subst he
      simp [lookupD]
    · have hne : c' ≠ g.1 := by
        intro hEq
        exact hnd.1 (hEq ▸ List.mem_map_of_mem (·.1) he)
      simp only [lookupD, if_neg hne]
      exact ih (by simpa [keysOf] using hnd.2) he

theorem mem_of_lookupD {β : Type} (l : List (String × β)) (c : String) (d : β)
    (h : c ∈ keysOf l) : (c, lookupD l c d) ∈ l := by
  induction l with
  | nil => cases h
  | cons e rest ih =>
    obtain ⟨c', v⟩ := e
    by_cases he : c' = c
    · subst he
      simp [lookupD]
    · have hr : c ∈ keysOf rest := by
        rcases List.mem_cons.mp h with h0 | h0
        · exact absurd h0.symm he
        · exact h0
      simp only [lookupD, if_neg he]
      exact List.mem_cons_of_mem _ (ih hr)

theorem keysOf_bumpCounter (counters : List (String × Nat)) (c : String) :
    keysOf (bumpCounter counters c) = keysOf counters := by
  induction counters with
  | nil => rfl
  | cons g rest ih =>
    obtain ⟨c', k⟩ := g
    by_cases h : c' = c
    · simp [bumpCounter, h, keysOf]
    · simp only [bumpCounter, if_neg h, keysOf, List.map_cons]
      simpa [keysOf] using ih

theorem lookupD_bumpCounter_self (counters : List (String × Nat)) (c : String)
    (h : c ∈ keysOf counters) :
    lookupD (bumpCounter counters c) c 0 = lookupD counters c 0 + 1 := by
  induction counters with
  | nil => cases h
  | cons g rest ih =>
    obtain ⟨c', k⟩ := g
    by_cases he : c' = c
    · subst he
      simp [bumpCounter, lookupD]
    · have hr : c ∈ keysOf rest := by
        rcases List.mem_cons.mp h with h0 | h0
        · exact absurd h0.symm he
        · exact h0
      simp only [bumpCounter, if_neg he, lookupD]
      exact ih hr

theorem lookupD_bumpCounter_ne (counters : List (String × Nat)) (c c' : String)
    (h : c' ≠ c) :
    lookupD (bumpCounter counters c) c' 0 = lookupD counters c' 0 := by
  induction counters with
  | nil => rfl
  | cons g rest ih =>
    obtain ⟨c₀, k⟩ := g
    by_cases he : c₀ = c
    · subst he
      simp only [bumpCounter, if_pos rfl, lookupD]
      rw [if_neg fun hx => h hx.symm, if_neg fun hx => h hx.symm]
    · simp only [bumpCounter, if_neg he, lookupD]
      by_cases he' : c₀ = c'
      · rw [if_pos he', if_pos he']
      · rw [if_neg he', if_neg he']
        exact ih

theorem lookupD_bumpCounter_le (counters : List (String × Nat)) (c c' : String) :
    lookupD (bumpCounter counters c) c' 0 ≤ lookupD counters c' 0 + 1 := by
  by_cases h : c' = c
  · subst h
    by_cases hm : c' ∈ keysOf counters
    · rw [lookupD_bumpCounter_self _ _ hm]
    · rw [lookupD_not_mem _ _ _ (by rwa [keysOf_bumpCounter])]
      omega
  · rw [lookupD_bumpCounter_ne _ _ _ h]
    omega

theorem lookupD_le_bumpCounter (counters : List (String × Nat)) (c c' : String) :
    lookupD counters c' 0 ≤ lookupD (bumpCounter counters c) c' 0 := by
  by_cases h : c' = c
  · subst h
    by_cases hm : c' ∈ keysOf counters
    · rw [lookupD_bumpCounter_self _ _ hm]
      omega
    · rw [lookupD_not_mem _ _ _ hm]
      omega
  · rw [lookupD_bumpCounter_ne _ _ _ h]

/-! ## takenOf and sumTaken lemmas -/

theorem takenOf_congr (groups : List (String × List Question))
    (counters₁ counters₂ : List (String × Nat))
    (h : ∀ c ∈ keysOf groups, lookupD counters₁ c 0 = lookupD counters₂ c 0) :
    takenOf groups counters₁ = takenOf groups counters₂ := by
  induction groups with
  | nil => rfl
  | cons g rest ih =>
    have ht := ih fun c hc => h c (by simp [keysOf] at hc ⊢; exact Or.inr hc)
    simp only [takenOf, List.map_cons, List.flatten_cons] at ht ⊢
    rw [h g.1 (by simp [keysOf]), ht]

theorem sumTaken_congr (groups : List (String × List Question))
    (counters₁ counters₂ : List (String × Nat))
    (h : ∀ c ∈ keysOf groups, lookupD counters₁ c 0 = lookupD counters₂ c 0) :
    sumTaken groups counters₁ = sumTaken groups counters₂ := by
  induction groups with
  | nil => rfl
  | cons g rest ih =>
    have ht := ih fun c hc => h c (by simp [keysOf] at hc ⊢; exact Or.inr hc)
    simp only [sumTaken, List.map_cons, List.sum_cons] at ht ⊢
    rw [h g.1 (by simp [keysOf]), ht]

theorem takenOf_bump (groups : List (String × List Question))
    (counters : List (String × Nat)) (c : String)
    (hnd : (keysOf groups).Nodup) (hmemc : c ∈ keysOf counters)
    (x : Question)
    (hx : (lookupD groups c [])[lookupD counters c 0]? = some x) :
    (takenOf groups (bumpCounter counters c)).Perm
      (takenOf groups counters ++ [x]) := by
  induction groups with
  | nil =>
    exfalso
    simp only [lookupD] at hx
    simp at hx
  | cons g rest ih =>
    obtain ⟨c₀, l₀⟩ := g
    simp only [keysOf, List.map_cons, List.nodup_cons] at hnd
    by_cases he : c₀ = c
    · subst he
      have hget : l₀[lookupD counters c₀ 0]? = some x := by
        simpa only [lookupD, if_pos rfl] using hx
      have ht := takenOf_congr rest (bumpCounter counters c₀) counters
        fun c' hc' => lookupD_bumpCounter_ne counters c₀ c' fun hEq => hnd.1 (hEq ▸ hc')
      simp only [takenOf] at ht
      simp only [takenOf, List.map_cons, List.flatten_cons,
        lookupD_bumpCounter_self counters c₀ hmemc, ht]
      rw [List.take_succ, hget]
      simp only [Option.toList_some, List.append_assoc]
      exact List.Perm.append_left _ List.perm_append_comm
    · have hxr : (lookupD rest c [])[lookupD counters c 0]? = some x := by
        simpa only [lookupD, if_neg he] using hx
      have hperm := ih hnd.2 hxr
      simp only [takenOf] at hperm
      simp only [takenOf, List.map_cons, List.flatten_cons,
        lookupD_bumpCounter_ne counters c c₀ he, List.append_assoc]
      exact List.Perm.append_left _ hperm

theorem sumTaken_bump (groups : List (String × List Question))
    (counters : List (String × Nat)) (c : String)
    (hnd : (keysOf groups).Nodup) (hmemg : c ∈ keysOf groups)
    (hmemc : c ∈ keysOf counters) :
    sumTaken groups (bumpCounter counters c) = sumTaken groups counters + 1 := by
  induction groups with
  | nil => cases hmemg
  | cons g rest ih =>
    obtain ⟨c₀, l₀⟩ := g
    simp only [keysOf, List.map_cons, List.nodup_cons] at hnd
    simp only [sumTaken, List.map_cons, List.sum_cons]
    by_cases he : c₀ = c
    · subst he
      have ht := sumTaken_congr rest (bumpCounter counters c₀) counters
        fun c' hc' => lookupD_bumpCounter_ne counters c₀ c' fun hEq => hnd.1 (hEq ▸ hc')
      simp only [sumTaken] at ht
      rw [lookupD_bumpCounter_self counters c₀ hmemc, ht]
      omega
    · have hmemr : c ∈ keysOf rest := by
        rcases List.mem_cons.mp hmemg with h0 | h0
        · exact absurd h0.symm he
        · exact h0
      have ht := ih hnd.2 hmemr
      simp only [sumTaken] at ht
      rw [lookupD_bumpCounter_ne counters c c₀ he, ht]
      omega

theorem takenOf_length (groups : List (String × List Question))
    (counters : List (String × Nat))
    (hb : ∀ g ∈ groups, lookupD counters g.1 0 ≤ g.2.length) :
    (takenOf groups counters).length = sumTaken groups counters := by
  induction groups with
  | nil => rfl
  | cons g rest ih =>
    simp only [takenOf, sumTaken, List.map_cons, List.flatten_cons,
      List.length_append, List.sum_cons, List.length_take]
    rw [min_eq_left (hb g (List.mem_cons_self g rest))]
    have := ih fun g' hg' => hb g' (List.mem_cons_of_mem _ hg')
    simp only [takenOf, sumTaken] at this
    omega

theorem takenOf_full (groups : List (String × List Question))
    (counters : List (String × Nat))
    (hf : ∀ g ∈ groups, lookupD counters g.1 0 = g.2.length) :
    takenOf groups counters = (groups.map (·.2)).flatten := by
  induction groups with
  | nil => rfl
  | cons g rest ih =>
    have ht := ih fun g' hg' => hf g' (List.mem_cons_of_mem _ hg')
    simp only [takenOf] at ht
    simp only [takenOf, List.map_cons, List.flatten_cons]
    rw [hf g (List.mem_cons_self g rest), List.take_length, ht]

theorem sumTaken_le_sumLens (groups : List (String × List Question))
    (counters : List (String × Nat))
    (hb : ∀ g ∈ groups, lookupD counters g.1 0 ≤ g.2.length) :
    sumTaken groups counters ≤ sumLens groups := by
  induction groups with
  | nil => exact le_refl 0
  | cons g rest ih =>
    simp only [sumTaken, sumLens, List.map_cons, List.sum_cons]
    have h1 := hb g (List.mem_cons_self g rest)
    have h2 := ih fun g' hg' => hb g' (List.mem_cons_of_mem _ hg')
    simp only [sumTaken, sumLens] at h2
    omega

theorem sumTaken_full_of_eq (groups : List (String × List Question))
    (counters : List (String × Nat))
    (hb : ∀ g ∈ groups, lookupD counters g.1 0 ≤ g.2.length)
    (he : sumTaken groups counters = sumLens groups) :
    ∀ g ∈ groups, lookupD counters g.1 0 = g.2.length := by
  induction groups with
  | nil => intro g hg; cases hg
  | cons g rest ih =>
    intro g' hg'
    simp only [sumTaken, sumLens, List.map_cons, List.sum_cons] at he
    have h1 := hb g (List.mem_cons_self g rest)
    have h2 := sumTaken_le_sumLens rest counters
      fun g'' hg'' => hb g'' (List.mem_cons_of_mem _ hg'')
    simp only [sumTaken, sumLens] at h2
    have hhead : lookupD counters g.1 0 = g.2.length := by omega
    have htail : sumTaken rest counters = sumLens rest := by
      simp only [sumTaken, sumLens]
      omega
    rcases List.mem_cons.mp hg' with h0 | h0
    · exact h0 ▸ hhead
    · exact ih (fun g'' hg'' => hb g'' (List.mem_cons_of_mem _ hg'')) htail g' h0

theorem sumTaken_mono (groups : List (String × List Question))
    (counters₁ counters₂ : List (String × Nat))
    (hle : ∀ c ∈ keysOf groups, lookupD counters₁ c 0 ≤ lookupD counters₂ c 0) :
    sumTaken groups counters₁ ≤ sumTaken groups counters₂ := by
  induction groups with
  | nil => exact le_refl 0
  | cons g rest ih =>
    simp only [sumTaken, List.map_cons, List.sum_cons]
    have h1 := hle g.1 (by simp [keysOf])
    have h2 := ih fun c hc => hle c (by simp [keysOf] at hc ⊢; exact Or.inr hc)
    simp only [sumTaken] at h2
    omega

theorem sumTaken_lt (groups : List (String × List Question))
    (counters₁ counters₂ : List (String × Nat))
    (hle : ∀ c ∈ keysOf groups, lookupD counters₁ c 0 ≤ lookupD counters₂ c 0)
    (c : String) (hc : c ∈ keysOf groups)
    (hlt : lookupD counters₁ c 0 < lookupD counters₂ c 0) :
    sumTaken groups counters₁ < sumTaken groups counters₂ := by
  induction groups with
  | nil => cases hc
  | cons g rest ih =>
    simp only [sumTaken, List.map_cons, List.sum_cons]
    have h1 := hle g.1 (by simp [keysOf])
    have hc' : c ∈ g.1 :: keysOf rest := by
      simpa only [keysOf, List.map_cons] using hc
    rcases List.mem_cons.mp hc' with h0 | h0
    · have hstrict : lookupD counters₁ g.1 0 < lookupD counters₂ g.1 0 := h0 ▸ hlt
      have h2 := sumTaken_mono rest counters₁ counters₂
        fun c' hc' => hle c' (by simp [keysOf] at hc' ⊢; exact Or.inr hc')
      simp only [sumTaken] at h2
      omega
    · have h2 := ih (fun c' hc' => hle c' (by simp [keysOf] at hc' ⊢; exact Or.inr hc')) h0
      simp only [sumTaken] at h2
      omega

/-! ## categorize lemmas -/

theorem keysOf_insertGrouped (groups : List (String × List Question)) (q : Question) :
    keysOf (insertGrouped groups q) =
      if q.category ∈ keysOf groups then keysOf groups
      else keysOf groups ++ [q.category] := by
  induction groups with
  | nil => simp [insertGrouped, keysOf]
  | cons g rest ih =>
    obtain ⟨c, qs⟩ := g
    by_cases he : c = q.category
    · subst he
      simp [insertGrouped, keysOf]
    · simp only [insertGrouped, if_neg he, keysOf, List.map_cons]
      simp only [keysOf] at ih
      rw [ih]
      by_cases hm : q.category ∈ List.map (fun x => x.1) rest
      · rw [if_pos hm, if_pos (by simp [hm])]
      · rw [if_neg hm,
          if_neg (by simp only [List.mem_cons]; push_neg; exact ⟨fun h => he h.symm, hm⟩)]
        simp

theorem keysOf_foldl_nodup (qs : List Question)
    (acc : List (String × List Question)) (hacc : (keysOf acc).Nodup) :
    (keysOf (qs.foldl insertGrouped acc)).Nodup := by
  induction qs generalizing acc with
  | nil => exact hacc
  | cons q rest ih =>
    simp only [List.foldl_cons]
    refine ih (insertGrouped acc q) ?_
    rw [keysOf_insertGrouped]
    by_cases hm : q.category ∈ keysOf acc
    · rwa [if_pos hm]
    · rw [if_neg hm]
      simp [List.nodup_append, hacc, hm]

theorem keysOf_categorize_nodup (qs : List Question) :
    (keysOf (categorize qs)).Nodup :=
  keysOf_foldl_nodup qs [] (by simp [keysOf])

theorem flatten_insertGrouped (groups : List (String × List Question)) (q : Question) :
    ((insertGrouped groups q).map (·.2)).flatten.Perm
      ((groups.map (·.2)).flatten ++ [q]) := by
  induction groups with
  | nil => simp [insertGrouped]
  | cons g rest ih =>
    obtain ⟨c, qs⟩ := g
    by_cases he : c = q.category
    · subst he
      rw [show insertGrouped ((q.category, qs) :: rest) q =
          (q.category, qs ++ [q]) :: rest from by simp [insertGrouped]]
      simp only [List.map_cons, List.flatten_cons, List.append_assoc]
      exact List.Perm.append_left qs
        (@List.perm_append_comm _ [q] ((rest.map (·.2)).flatten))
    · simp only [insertGrouped, if_neg he, List.map_cons, List.flatten_cons,
        List.append_assoc]
      exact List.Perm.append_left qs ih

theorem flatten_foldl_perm (qs : List Question) (acc : List (String × List Question)) :
    ((qs.foldl insertGrouped acc).map (·.2)).flatten.Perm
      ((acc.map (·.2)).flatten ++ qs) := by
  induction qs generalizing acc with
  | nil => simp
  | cons q rest ih =>
    simp only [List.foldl_cons]
    refine (ih (insertGrouped acc q)).trans ?_
    have h2 := (flatten_insertGrouped acc q).append_right rest
    have h3 : ((acc.map (·.2)).flatten ++ [q]) ++ rest =
        (acc.map (·.2)).flatten ++ (q :: rest) := by simp
    rw [h3] at h2
    exact h2

theorem flatten_categorize_perm (qs : List Question) :
    ((categorize qs).map (·.2)).flatten.Perm qs := by
  simpa [categorize] using flatten_foldl_perm qs []

/-! ## Shuffled groups -/

theorem keysOf_shuffleGroups (r : Shuffler) (groups : List (String × List Question)) :
    keysOf (groups.map fun g => (g.1, r.shuffleGroup g.1 g.2)) = keysOf groups := by
  simp [keysOf]

theorem flatten_shuffleGroups_perm (r : Shuffler)
    (hr : ∀ c l, (r.shuffleGroup c l).Perm l)
    (groups : List (String × List Question)) :
    (((groups.map fun g => (g.1, r.shuffleGroup g.1 g.2)).map (·.2)).flatten).Perm
      ((groups.map (·.2)).flatten) := by
  induction groups with
  | nil => simp
  | cons g rest ih =>
    simp only [List.map_cons, List.flatten_cons]
    exact (hr g.1 g.2).append ih

theorem sumLens_shuffleGroups (r : Shuffler)
    (hr : ∀ c l, (r.shuffleGroup c l).Perm l)
    (groups : List (String × List Question)) :
    sumLens (groups.map fun g => (g.1, r.shuffleGroup g.1 g.2)) = sumLens groups := by
  induction groups with
  | nil => rfl
  | cons g rest ih =>
    simp only [sumLens, List.map_cons, List.sum_cons] at ih ⊢
    rw [(hr g.1 g.2).length_eq, ih]

theorem sumLens_eq_flatten_length (groups : List (String × List Question)) :
    sumLens groups = ((groups.map (·.2)).flatten).length := by
  induction groups with
  | nil => rfl
  | cons g rest ih =>
    simp only [sumLens, List.map_cons, List.sum_cons, List.flatten_cons,
      List.length_append] at ih ⊢
    omega

/-! ## distributeRound lemmas -/

theorem LoopInv.bump (groups : List (String × List Question))
    (result : List Question) (counters : List (String × Nat)) (c : String)
    (hnd : (keysOf groups).Nodup)
    (hInv : LoopInv groups result counters)
    (h : lookupD counters c 0 < (lookupD groups c []).length) :
    LoopInv groups
      (result ++ [(lookupD groups c []).get ⟨lookupD counters c 0, h⟩])
      (bumpCounter counters c) := by
  have hmemg : c ∈ keysOf groups := mem_keysOf_of_lt groups counters c h
  have hmemc : c ∈ keysOf counters := by rw [hInv.keys_eq]; exact hmemg
  refine ⟨?_, ?_, ?_⟩
  · rw [keysOf_bumpCounter, hInv.keys_eq]
  · intro g hg
    by_cases he : g.1 = c
    · have hgl : lookupD groups c [] = g.2 := by
        rw [← he]
        exact lookupD_of_mem_nodup groups [] hnd g hg
      rw [he, lookupD_bumpCounter_self counters c hmemc, ← hgl]
      omega
    · rw [lookupD_bumpCounter_ne counters c g.1 he]
      exact hInv.bounds g hg
  · have hx : (lookupD groups c [])[lookupD counters c 0]? =
        some ((lookupD groups c []).get ⟨lookupD counters c 0, h⟩) := by
      rw [List.getElem?_eq_getElem h]
      simp
    have h1 := takenOf_bump groups counters c hnd hmemc _ hx
    exact (hInv.perm.append_right _).trans h1.symm

theorem distributeRound_inv (total : Nat) (groups : List (String × List Question))
    (hnd : (keysOf groups).Nodup) :
    ∀ (order : List String) (result : List Question) (counters : List (String × Nat)),
      LoopInv groups result counters →
      LoopInv groups (distributeRound total groups order (result, counters)).1
        (distributeRound total groups order (result, counters)).2 := by
  intro order
  induction order with
  | nil =>
    intro result counters hInv
    simpa only [distributeRound] using hInv
  | cons c rest ih =>
    intro result counters hInv
    rw [distributeRound]
    by_cases h : lookupD counters c 0 < (lookupD groups c []).length
    · rw [dif_pos h]
      have hInv' := LoopInv.bump groups result counters c hnd hInv h
      by_cases hb : total ≤
          (result ++ [(lookupD groups c []).get ⟨lookupD counters c 0, h⟩]).length
      · simpa only [if_pos hb] using hInv'
      · simpa only [if_neg hb] using ih _ _ hInv'
    · rw [dif_neg h]
      exact ih _ _ hInv

theorem distributeRound_not_mem (total : Nat) (groups : List (String × List Question)) :
    ∀ (order : List String) (result : List Question) (counters : List (String × Nat))
      (c : String), c ∉ order →
      lookupD (distributeRound total groups order (result, counters)).2 c 0 =
        lookupD counters c 0 := by
  intro order
  induction order with
  | nil =>
    intro result counters c _
    rfl
  | cons c₀ rest ih =>
    intro result counters c hc
    have hne : c ≠ c₀ := fun hEq => hc (hEq ▸ List.mem_cons_self c₀ rest)
    have hrest : c ∉ rest := fun hm => hc (List.mem_cons_of_mem c₀ hm)
    rw [distributeRound]
    by_cases h : lookupD counters c₀ 0 < (lookupD groups c₀ []).length
    · rw [dif_pos h]
      by_cases hb : total ≤
          (result ++ [(lookupD groups c₀ []).get ⟨lookupD counters c₀ 0, h⟩]).length
      · rw [if_pos hb]
        exact lookupD_bumpCounter_ne counters c₀ c hne
      · rw [if_neg hb, ih _ _ c hrest]
        exact lookupD_bumpCounter_ne counters c₀ c hne
    · rw [dif_neg h]
      exact ih _ _ c hrest

theorem distributeRound_le_succ (total : Nat) (groups : List (String × List Question)) :
    ∀ (order : List String), order.Nodup →
      ∀ (result : List Question) (counters : List (String × Nat)) (c : String),
      lookupD (distributeRound total groups order (result, counters)).2 c 0 ≤
        lookupD counters c 0 + 1 := by
  intro order
  induction order with
  | nil =>
    intro _ result counters c
    simp only [distributeRound]
    omega
  | cons c₀ rest ih =>
    intro hnd result counters c
    simp only [List.nodup_cons] at hnd
    rw [distributeRound]
    by_cases h : lookupD counters c₀ 0 < (lookupD groups c₀ []).length
    · rw [dif_pos h]
      by_cases hb : total ≤
          (result ++ [(lookupD groups c₀ []).get ⟨lookupD counters c₀ 0, h⟩]).length
      · rw [if_pos hb]
        exact lookupD_bumpCounter_le counters c₀ c
      · rw [if_neg hb]
        by_cases he : c = c₀
        · subst he
          rw [distributeRound_not_mem total groups rest _ _ c hnd.1]
          exact lookupD_bumpCounter_le counters c c
        · have := ih hnd.2 (result ++ [(lookupD groups c₀ []).get
              ⟨lookupD counters c₀ 0, h⟩]) (bumpCounter counters c₀) c
          rwa [lookupD_bumpCounter_ne counters c₀ c he] at this
    · rw [dif_neg h]
      exact ih hnd.2 _ _ c

theorem distributeRound_mono (total : Nat) (groups : List (String × List Question)) :
    ∀ (order : List String) (result : List Question) (counters : List (String × Nat))
      (c : String),
      lookupD counters c 0 ≤
        lookupD (distributeRound total groups order (result, counters)).2 c 0 := by
  intro order
  induction order with
  | nil =>
    intro result counters c
    simp only [distributeRound]
    omega
  | cons c₀ rest ih =>
    intro result counters c
    rw [distributeRound]
    by_cases h : lookupD counters c₀ 0 < (lookupD groups c₀ []).length
    · rw [dif_pos h]
      by_cases hb : total ≤
          (result ++ [(lookupD groups c₀ []).get ⟨lookupD counters c₀ 0, h⟩]).length
      · rw [if_pos hb]
        exact lookupD_le_bumpCounter counters c₀ c
      · rw [if_neg hb]
        exact (lookupD_le_bumpCounter counters c₀ c).trans (ih _ _ c)
    · rw [dif_neg h]
      exact ih _ _ c

theorem distributeRound_hit (total : Nat) (groups : List (String × List Question))
    (hnd : (keysOf groups).Nodup) (htot : total = sumLens groups) :
    ∀ (order : List String), order.Nodup →
      ∀ (result : List Question) (counters : List (String × Nat)) (c : String),
      LoopInv groups result counters → c ∈ order →
      lookupD counters c 0 < (lookupD groups c []).length →
      lookupD (distributeRound total groups order (result, counters)).2 c 0 =
        lookupD counters c 0 + 1 := by
  intro order
  induction order with
  | nil =>
    intro _ result counters c _ hmem _
    cases hmem
  | cons c₀ rest ih =>
    intro hndo result counters c hInv hmem hlt
    simp only [List.nodup_cons] at hndo
    rw [distributeRound]
    by_cases he : c₀ = c
    · subst he
      rw [dif_pos hlt]
      have hmemc : c₀ ∈ keysOf counters := by
        rw [hInv.keys_eq]
        exact mem_keysOf_of_lt groups counters c₀ hlt
      by_cases hb : total ≤
          (result ++ [(lookupD groups c₀ []).get ⟨lookupD counters c₀ 0, hlt⟩]).length
      · rw [if_pos hb]
        exact lookupD_bumpCounter_self counters c₀ hmemc
      · rw [if_neg hb, distributeRound_not_mem total groups rest _ _ c₀ hndo.1]
        exact lookupD_bumpCounter_self counters c₀ hmemc
    · have hmemr : c ∈ rest := by
        rcases List.mem_cons.mp hmem with h0 | h0
        · exact absurd h0.symm he
        · exact h0
      have hne : c ≠ c₀ := fun hEq => he hEq.symm
      by_cases h : lookupD counters c₀ 0 < (lookupD groups c₀ []).length
      · rw [dif_pos h]
        have hInv' := LoopInv.bump groups result counters c₀ hnd hInv h
        have hcu : lookupD (bumpCounter counters c₀) c 0 = lookupD counters c 0 :=
          lookupD_bumpCounter_ne counters c₀ c hne
        by_cases hb : total ≤
            (result ++ [(lookupD groups c₀ []).get ⟨lookupD counters c₀ 0, h⟩]).length
        · exfalso
          have hlen : (result ++ [(lookupD groups c₀ []).get
              ⟨lookupD counters c₀ 0, h⟩]).length =
              sumTaken groups (bumpCounter counters c₀) := by
            rw [hInv'.perm.length_eq]
            exact takenOf_length groups _ hInv'.bounds
          have hle := sumTaken_le_sumLens groups (bumpCounter counters c₀) hInv'.bounds
          have heq : sumTaken groups (bumpCounter counters c₀) = sumLens groups := by
            omega
          have hfull := sumTaken_full_of_eq groups (bumpCounter counters c₀)
            hInv'.bounds heq
          have hmemg : c ∈ keysOf groups := mem_keysOf_of_lt groups counters c hlt
          have hcmem := mem_of_lookupD groups c [] hmemg
          have := hfull (c, lookupD groups c []) hcmem
          simp only at this
          rw [hcu] at this
          omega
        · rw [if_neg hb]
          rw [ih hndo.2 _ _ c hInv' hmemr (by rwa [hcu]), hcu]
      · rw [dif_neg h]
        exact ih hndo.2 _ _ c hInv hmemr hlt

/-! ## Outer loop lemmas -/

theorem sumTaken_eq_sumLens_of_full (groups : List (String × List Question))
    (counters : List (String × Nat))
    (hf : ∀ g ∈ groups, lookupD counters g.1 0 = g.2.length) :
    sumTaken groups counters = sumLens groups := by
  induction groups with
  | nil => rfl
  | cons g rest ih =>
    simp only [sumTaken, sumLens, List.map_cons, List.sum_cons]
    have h2 := ih fun g' hg' => hf g' (List.mem_cons_of_mem _ hg')
    simp only [sumTaken, sumLens] at h2
    rw [hf g (List.mem_cons_self g rest), h2]

theorem exists_lt_of_sumTaken_lt (groups : List (String × List Question))
    (counters : List (String × Nat))
    (hb : ∀ g ∈ groups, lookupD counters g.1 0 ≤ g.2.length)
    (hlt : sumTaken groups counters < sumLens groups) :
    ∃ g ∈ groups, lookupD counters g.1 0 < g.2.length := by
  by_contra hno
  push_neg at hno
  have hf : ∀ g ∈ groups, lookupD counters g.1 0 = g.2.length := fun g hg =>
    le_antisymm (hb g hg) (hno g hg)
  rw [sumTaken_eq_sumLens_of_full groups counters hf] at hlt
  omega

theorem LoopInv.length_eq (groups : List (String × List Question))
    (result : List Question) (counters : List (String × Nat))
    (hInv : LoopInv groups result counters) :
    result.length = sumTaken groups counters :=
  hInv.perm.length_eq.trans (takenOf_length groups counters hInv.bounds)

theorem LoopInv.length_le (groups : List (String × List Question))
    (result : List Question) (counters : List (String × Nat))
    (hInv : LoopInv groups result counters) :
    result.length ≤ sumLens groups := by
  rw [LoopInv.length_eq groups result counters hInv]
  exact sumTaken_le_sumLens groups counters hInv.bounds

theorem distributeRound_progress (total : Nat) (groups : List (String × List Question))
    (hnd : (keysOf groups).Nodup) (htot : total = sumLens groups)
    (order : List String) (hord : order.Perm (keysOf groups))
    (result : List Question) (counters : List (String × Nat))
    (hInv : LoopInv groups result counters) (hlt : result.length < total) :
    result.length + 1 ≤
      (distributeRound total groups order (result, counters)).1.length := by
  have hlen := LoopInv.length_eq groups result counters hInv
  have hsum : sumTaken groups counters < sumLens groups := by omega
  obtain ⟨g, hg, hglt⟩ :=
    exists_lt_of_sumTaken_lt groups counters hInv.bounds hsum
  have hmemg : g.1 ∈ keysOf groups := List.mem_map_of_mem (·.1) hg
  have hgl : lookupD groups g.1 [] = g.2 := lookupD_of_mem_nodup groups [] hnd g hg
  have hcnt : lookupD counters g.1 0 < (lookupD groups g.1 []).length := by
    rw [hgl]
    exact hglt
  have hordnd : order.Nodup := hord.nodup_iff.mpr hnd
  have hmem : g.1 ∈ order := hord.mem_iff.mpr hmemg
  have hhit := distributeRound_hit total groups hnd htot order hordnd
    result counters g.1 hInv hmem hcnt
  have hmono : ∀ c ∈ keysOf groups,
      lookupD counters c 0 ≤
        lookupD (distributeRound total groups order (result, counters)).2 c 0 :=
    fun c _ => distributeRound_mono total groups order result counters c
  have hstrict := sumTaken_lt groups counters
    (distributeRound total groups order (result, counters)).2 hmono g.1 hmemg
    (by omega)
  have hInv' := distributeRound_inv total groups hnd order result counters hInv
  have hlen' := LoopInv.length_eq groups _ _ hInv'
  omega

theorem distributeRounds_inv (r : Shuffler) (total : Nat)
    (groups : List (String × List Question)) (categories : List String)
    (hnd : (keysOf groups).Nodup) :
    ∀ (fuel round : Nat) (result : List Question) (counters : List (String × Nat)),
      LoopInv groups result counters →
      LoopInv groups
        (distributeRounds r total groups categories fuel round (result, counters)).1
        (distributeRounds r total groups categories fuel round (result, counters)).2 := by
  intro fuel
  induction fuel with
  | zero =>
    intro round result counters hInv
    simpa only [distributeRounds] using hInv
  | succ fuel ih =>
    intro round result counters hInv
    rw [distributeRounds]
    by_cases hguard : (result, counters).1.length < total
    · rw [if_pos hguard]
      have h1 := distributeRound_inv total groups hnd
        (r.shuffleCategories round categories) result counters hInv
      have := ih (round + 1)
        (distributeRound total groups (r.shuffleCategories round categories)
          (result, counters)).1
        (distributeRound total groups (r.shuffleCategories round categories)
          (result, counters)).2 h1
      simpa only [Prod.mk.eta] using this
    · rw [if_neg hguard]
      exact hInv

theorem distributeRounds_done (r : Shuffler) (hr : r.Lawful) (total : Nat)
    (groups : List (String × List Question)) (categories : List String)
    (hnd : (keysOf groups).Nodup) (htot : total = sumLens groups)
    (hcat : categories = keysOf groups) :
    ∀ (fuel round : Nat) (result : List Question) (counters : List (String × Nat)),
      LoopInv groups result counters → total ≤ result.length + fuel →
      (distributeRounds r total groups categories fuel round
        (result, counters)).1.length = total := by
  intro fuel
  induction fuel with
  | zero =>
    intro round result counters hInv hfuel
    have hle := LoopInv.length_le groups result counters hInv
    simp only [distributeRounds]
    omega
  | succ fuel ih =>
    intro round result counters hInv hfuel
    rw [distributeRounds]
    by_cases hguard : (result, counters).1.length < total
    · rw [if_pos hguard]
      have hord : (r.shuffleCategories round categories).Perm (keysOf groups) :=
        hcat ▸ hr.2 round categories
      have hprog := distributeRound_progress total groups hnd htot
        (r.shuffleCategories round categories) hord result counters hInv hguard
      have hInv' := distributeRound_inv total groups hnd
        (r.shuffleCategories round categories) result counters hInv
      have := ih (round + 1)
        (distributeRound total groups (r.shuffleCategories round categories)
          (result, counters)).1
        (distributeRound total groups (r.shuffleCategories round categories)
          (result, counters)).2 hInv' (by omega)
      simpa only [Prod.mk.eta] using this
    · rw [if_neg hguard]
      have hle := LoopInv.length_le groups result counters hInv
      have hg : ¬ result.length < total := hguard
      show result.length = total
      omega

theorem distributeRounds_stable (r : Shuffler) (hr : r.Lawful) (total : Nat)
    (groups : List (String × List Question)) (categories : List String)
    (hnd : (keysOf groups).Nodup) (htot : total = sumLens groups)
    (hcat : categories = keysOf groups) :
    ∀ (fuel₁ fuel₂ round : Nat) (result : List Question)
      (counters : List (String × Nat)),
      LoopInv groups result counters →
      total ≤ result.length + fuel₁ → total ≤ result.length + fuel₂ →
      distributeRounds r total groups categories fuel₁ round (result, counters) =
        distributeRounds r total groups categories fuel₂ round (result, counters) := by
  intro fuel₁
  induction fuel₁ with
  | zero =>
    intro fuel₂ round result counters hInv h₁ h₂
    cases fuel₂ with
    | zero => rfl
    | succ fuel₂ =>
      simp only [distributeRounds]
      rw [if_neg (show ¬ result.length < total by omega)]
  | succ fuel₁ ih =>
    intro fuel₂ round result counters hInv h₁ h₂
    by_cases hguard : result.length < total
    · cases fuel₂ with
      | zero => omega
      | succ fuel₂ =>
        simp only [distributeRounds]
        rw [if_pos hguard, if_pos hguard]
        have hord : (r.shuffleCategories round categories).Perm (keysOf groups) :=
          hcat ▸ hr.2 round categories
        have hprog := distributeRound_progress total groups hnd htot
          (r.shuffleCategories round categories) hord result counters hInv hguard
        have hInv' := distributeRound_inv total groups hnd
          (r.shuffleCategories round categories) result counters hInv
        have := ih fuel₂ (round + 1)
          (distributeRound total groups (r.shuffleCategories round categories)
            (result, counters)).1
          (distributeRound total groups (r.shuffleCategories round categories)
            (result, counters)).2 hInv' (by omega) (by omega)
        simpa only [Prod.mk.eta] using this
    · cases fuel₂ with
      | zero =>
        simp only [distributeRounds]
        rw [if_neg hguard]
      | succ fuel₂ =>
        simp only [distributeRounds]
        rw [if_neg hguard, if_neg hguard]

/-! ## smartShuffle assembly -/

theorem lookupD_map_zero (l : List String) (c : String) :
    lookupD (l.map fun c => (c, 0)) c 0 = 0 := by
  induction l with
  | nil => rfl
  | cons a rest ih =>
    simp only [List.map_cons, lookupD]
    split
    · rfl
    · exact ih

theorem takenOf_map_zero (groups : List (String × List Question)) (l : List String) :
    takenOf groups (l.map fun c => (c, 0)) = [] := by
  induction groups with
  | nil => rfl
  | cons g rest ih =>
    simp only [takenOf, List.map_cons, List.flatten_cons] at ih ⊢
    rw [lookupD_map_zero, List.take_zero, List.nil_append]
    exact ih

theorem initial_inv (groups : List (String × List Question)) :
    LoopInv groups [] ((keysOf groups).map fun c => (c, 0)) := by
  refine ⟨?_, ?_, ?_⟩
  · simp [keysOf, List.map_map, Function.comp]
  · intro g hg
    rw [lookupD_map_zero]
    omega
  · rw [takenOf_map_zero]

theorem shuffled_keys_nodup (r : Shuffler) (qs : List Question) :
    (keysOf ((categorize qs).map fun g => (g.1, r.shuffleGroup g.1 g.2))).Nodup := by
  rw [keysOf_shuffleGroups]
  exact keysOf_categorize_nodup qs

theorem shuffled_total (r : Shuffler) (hr1 : ∀ c l, (r.shuffleGroup c l).Perm l)
    (qs : List Question) :
    qs.length =
      sumLens ((categorize qs).map fun g => (g.1, r.shuffleGroup g.1 g.2)) := by
  rw [sumLens_shuffleGroups r hr1, sumLens_eq_flatten_length]
  exact (flatten_categorize_perm qs).length_eq.symm

theorem distributeRounds_final_perm (r : Shuffler) (hr : r.Lawful) (total : Nat)
    (groups : List (String × List Question))
    (hnd : (keysOf groups).Nodup) (htot : total = sumLens groups)
    (fuel : Nat) (hfuel : total ≤ fuel) :
    (distributeRounds r total groups (keysOf groups) fuel 0
      ([], (keysOf groups).map fun c => (c, 0))).1.Perm
      ((groups.map (·.2)).flatten) := by
  have hInv0 := initial_inv groups
  have hfin := distributeRounds_inv r total groups (keysOf groups) hnd fuel 0 []
    _ hInv0
  have hsum := LoopInv.length_eq _ _ _ hfin
  have hlen := distributeRounds_done r hr total groups (keysOf groups) hnd htot
    rfl fuel 0 [] _ hInv0 (by simpa using hfuel)
  have hle := sumTaken_le_sumLens _ _ hfin.bounds
  have hfull := sumTaken_full_of_eq _ _ hfin.bounds (by omega)
  have htake := takenOf_full _ _ hfull
  have hperm := hfin.perm
  rw [htake] at hperm
  exact hperm

theorem distributeRounds_fuel_irrel (r : Shuffler) (hr : r.Lawful) (total : Nat)
    (groups : List (String × List Question))
    (hnd : (keysOf groups).Nodup) (htot : total = sumLens groups)
    (fuel₁ fuel₂ : Nat) (h₁ : total ≤ fuel₁) (h₂ : total ≤ fuel₂) :
    distributeRounds r total groups (keysOf groups) fuel₁ 0
        ([], (keysOf groups).map fun c => (c, 0)) =
      distributeRounds r total groups (keysOf groups) fuel₂ 0
        ([], (keysOf groups).map fun c => (c, 0)) := by
  exact distributeRounds_stable r hr total groups (keysOf groups) hnd htot rfl
    fuel₁ fuel₂ 0 [] _ (initial_inv groups) (by simpa using h₁) (by simpa using h₂)

theorem smartShuffleFuel_perm (r : Shuffler) (hr : r.Lawful) (qs : List Question)
    (fuel : Nat) (hfuel : qs.length ≤ fuel) :
    (smartShuffleFuel r fuel qs).Perm qs := by
  have h := distributeRounds_final_perm r hr qs.length
    ((categorize qs).map fun g => (g.1, r.shuffleGroup g.1 g.2))
    (shuffled_keys_nodup r qs) (shuffled_total r hr.1 qs) fuel hfuel
  exact h.trans
    ((flatten_shuffleGroups_perm r hr.1 (categorize qs)).trans
      (flatten_categorize_perm qs))

/-- Claim C1: for every input list and every lawful randomness oracle, the
Fair Shuffle returns a permutation of its input — same length, same multiset
(equal counts for every record: nothing duplicated, nothing lost). -/
theorem smartShuffle_perm (r : Shuffler) (hr : r.Lawful) (qs : List Question) :
    (smartShuffle r qs).Perm qs ∧
    (smartShuffle r qs).length = qs.length ∧
    ∀ q : Question, (smartShuffle r qs).count q = qs.count q := by
  have h := smartShuffleFuel_perm r hr qs qs.length (le_refl _)
  exact ⟨h, h.length_eq, fun q => h.count_eq q⟩

theorem smartShuffle_perm_witness :
    idShuffler.Lawful ∧
    (smartShuffle idShuffler [qA1, qA2, qB1]).Perm [qA1, qA2, qB1] :=
  ⟨⟨fun _ l => List.Perm.refl l, fun _ l => List.Perm.refl l⟩,
    (smartShuffle_perm idShuffler
      ⟨fun _ l => List.Perm.refl l, fun _ l => List.Perm.refl l⟩
      [qA1, qA2, qB1]).1⟩

/-- Claim C10: the while loop of the Fair Shuffle terminates on every input:
`questions.length` rounds of fuel always suffice (every extra round changes
nothing, because each full pass with records remaining emits at least one
record), and the loop guard is false at exit — the emitted prefix has reached
the full input length.  The result is thus a total function of its input. -/
theorem smartShuffle_terminates (r : Shuffler) (hr : r.Lawful)
    (qs : List Question) (extra : Nat) :
    smartShuffleFuel r (qs.length + extra) qs = smartShuffle r qs ∧
    (smartShuffle r qs).length = qs.length := by
  constructor
  · exact congrArg Prod.fst
      (distributeRounds_fuel_irrel r hr qs.length
        ((categorize qs).map fun g => (g.1, r.shuffleGroup g.1 g.2))
        (shuffled_keys_nodup r qs) (shuffled_total r hr.1 qs)
        (qs.length + extra) qs.length (by omega) (le_refl _))
  · exact (smartShuffleFuel_perm r hr qs qs.length (le_refl _)).length_eq

theorem smartShuffle_terminates_witness :
    idShuffler.Lawful ∧
    (smartShuffleFuel idShuffler (([qA1, qA2, qB1] : List Question).length + 2)
        [qA1, qA2, qB1] =
      smartShuffle idShuffler [qA1, qA2, qB1] ∧
    (smartShuffle idShuffler [qA1, qA2, qB1]).length =
      ([qA1, qA2, qB1] : List Question).length) :=
  ⟨⟨fun _ l => List.Perm.refl l, fun _ l => List.Perm.refl l⟩,
    smartShuffle_terminates idShuffler
      ⟨fun _ l => List.Perm.refl l, fun _ l => List.Perm.refl l⟩
      [qA1, qA2, qB1] 2⟩

/-- Claim C4: within one round of the Fair Shuffle (one pass over a
duplicate-free category order), every category's counter advances by at most
one — no category contributes two records in the same round — and every
category that still has unconsumed records and appears in the order advances
by exactly one: no category is starved, whatever the group sizes. -/
theorem distributeRound_once_per_round (total : Nat)
    (groups : List (String × List Question))
    (hnd : (keysOf groups).Nodup) (htot : total = sumLens groups)
    (order : List String) (hordnd : order.Nodup)
    (result : List Question) (counters : List (String × Nat))
    (hInv : LoopInv groups result counters) (c : String) :
    lookupD (distributeRound total groups order (result, counters)).2 c 0 ≤
      lookupD counters c 0 + 1 ∧
    (c ∈ order → lookupD counters c 0 < (lookupD groups c []).length →
      lookupD (distributeRound total groups order (result, counters)).2 c 0 =
        lookupD counters c 0 + 1) :=
  ⟨distributeRound_le_succ total groups order hordnd result counters c,
    fun hmem hlt =>
      distributeRound_hit total groups hnd htot order hordnd result counters c
        hInv hmem hlt⟩

theorem distributeRound_once_per_round_witness :
    (keysOf groupsW).Nodup ∧ 3 = sumLens groupsW ∧
    (["B", "A"] : List String).Nodup ∧ LoopInv groupsW [] countersW ∧
    (lookupD (distributeRound 3 groupsW ["B", "A"] ([], countersW)).2 ("A") 0 ≤
      lookupD countersW ("A") 0 + 1 ∧
    (("A" : String) ∈ (["B", "A"] : List String) →
      lookupD countersW ("A") 0 < (lookupD groupsW ("A") []).length →
      lookupD (distributeRound 3 groupsW ["B", "A"] ([], countersW)).2 ("A") 0 =
        lookupD countersW ("A") 0 + 1)) :=
  ⟨by decide, by decide, by decide,
    ⟨rfl, by decide, by rw [show takenOf groupsW countersW = [] from rfl]⟩,
    distributeRound_once_per_round 3 groupsW (by decide) (by decide)
      ["B", "A"] (by decide) [] countersW
      ⟨rfl, by decide, by rw [show takenOf groupsW countersW = [] from rfl]⟩
      ("A")⟩

/-! ## Slide navigator: bounds -/

theorem nextQuestion_invariant (len : Nat) (i : Int) (h : navInvariant len i) :
    navInvariant len (nextQuestion len i) := by
  simp only [navInvariant, nextQuestion] at h ⊢
  split <;> omega

theorem prevQuestion_invariant (len : Nat) (i : Int) (h : navInvariant len i) :
    navInvariant len (prevQuestion i) := by
  simp only [navInvariant, prevQuestion] at h ⊢
  split <;> omega

/-- Claim C2: for every finite sequence of advance/retreat operations applied
from any state satisfying the bounds invariant, `currentIndex` stays in
`[0, slides.length - 1]` when slides are non-empty and stays `0` when empty;
boundary operations are silent no-ops, never errors. -/
theorem nav_bounds_invariant (len : Nat) (ops : List NavOp) (i : Int)
    (h : navInvariant len i) : navInvariant len (runNav len ops i) := by
  induction ops generalizing i with
  | nil => exact h
  | cons op rest ih =>
    cases op with
    | advance => exact ih (nextQuestion len i) (nextQuestion_invariant len i h)
    | retreat => exact ih (prevQuestion i) (prevQuestion_invariant len i h)

theorem nav_bounds_invariant_witness :
    navInvariant 3 0 ∧
      navInvariant 3 (runNav 3 [.advance, .advance, .advance, .retreat] 0) :=
  ⟨by decide, nav_bounds_invariant 3 [.advance, .advance, .advance, .retreat] 0 (by decide)⟩

/-! ## Slide navigator: clamping on slide replacement -/

/-- Claim C5: replacing the slide sequence re-establishes the bounds
invariant at once: the clamp sends `currentIndex` to
`min(currentIndex, newLen - 1)`, or `0` for an empty sequence, and the result
satisfies the invariant for every nonnegative prior index; in particular index
5 against new length 3 becomes 2. -/
theorem clampIndex_spec (len : Nat) (i : Int) :
    clampIndex len i = (if len = 0 then 0 else min i ((len : Int) - 1)) ∧
    (0 ≤ i → navInvariant len (clampIndex len i)) ∧
    clampIndex 3 5 = 2 := by
  refine ⟨?_, ?_, by decide⟩
  · simp only [clampIndex]
    split <;> simp_all
  · intro h0
    simp only [clampIndex, navInvariant]
    split <;> omega

theorem clampIndex_spec_witness :
    (0 : Int) ≤ 5 ∧ navInvariant 3 (clampIndex 3 5) ∧ clampIndex 3 5 = 2 :=
  ⟨by decide, (clampIndex_spec 3 5).2.1 (by decide), (clampIndex_spec 3 5).2.2⟩

/-! ## Parser round-trip -/

/-- Claim C8: the quoted field `"Hello, ""World""\nFoo"` parses to a single
field whose literal text is `Hello, "World"`, a newline, then `Foo`: the
comma and newline inside quotes do not split, and each doubled quote yields
one literal quote. -/
theorem parseCSV_roundtrip :
    parseCSV ("\"Hello, \"\"World\"\"\nFoo\"") = [["Hello, \"World\"\nFoo"]] := by
  rfl

/-! ## Incomplete gestures -/

/-- Claim C9: a drag that starts and then ends without any recorded move is a
zero-offset end in every tracker: the decision is cancel (no navigation), and
the tracker returns to the idle state rather than erroring. -/
theorem incomplete_gesture_cancel (x y : ℚ) (s : QuizApp.AppDragState)
    (t : StackedCards.CardsDragState) (u : QuizCard.TouchState) :
    (QuizApp.handleEnd x y (QuizApp.handleStart x y s)).2 = false ∧
    (QuizApp.handleEnd x y (QuizApp.handleStart x y s)).1.isDragging = false ∧
    (StackedCards.handlePointerEnd (StackedCards.handlePointerStart x y t)).2 = false ∧
    (StackedCards.handlePointerEnd (StackedCards.handlePointerStart x y t)).1.isDragging = false ∧
    QuizCard.onTouchEndQC (QuizCard.onTouchStartQC x u) = none := by
  refine ⟨?_, ?_, ?_, ?_, ?_⟩
  · simp [QuizApp.handleEnd, QuizApp.handleStart]
  · simp [QuizApp.handleEnd, QuizApp.handleStart]
  · simp [StackedCards.handlePointerEnd, StackedCards.handlePointerStart]
  · simp [StackedCards.handlePointerEnd, StackedCards.handlePointerStart]
  · simp [QuizCard.onTouchEndQC, QuizCard.onTouchStartQC]

/-! ## One-dimensional commit variant -/

/-- Claim C6: in the one-dimensional gesture variant a commit happens iff
`|deltaX|` exceeds the 50-unit threshold and `|deltaX| > |deltaY|`; the
direction is the sign of `deltaX` (positive fires the backward callback);
`IntroSlide`'s fallback decision is the same rule; offset (60, 0) commits and
(40, 0) does not. -/
theorem oneD_commit_spec (dx dy : ℚ) :
    (Part002.handleEnd1D dx dy ≠ none ↔ (50 < |dx| ∧ |dy| < |dx|)) ∧
    (Part002.handleEnd1D dx dy = some .backward ↔
      (50 < |dx| ∧ |dy| < |dx| ∧ 0 < dx)) ∧
    (Part002.handleEnd1D dx dy = some .forward ↔
      (50 < |dx| ∧ |dy| < |dx| ∧ dx < 0)) ∧
    (IntroSlide.swipeDecision dx dy =
      (Part002.handleEnd1D dx dy).map
        (fun c => match c with
          | .backward => IntroSlide.Swipe.right
          | .forward => IntroSlide.Swipe.left)) ∧
    Part002.handleEnd1D 60 0 = some .backward ∧
    Part002.handleEnd1D 40 0 = none := by
  have habs60 : |(60 : ℚ)| = 60 := abs_of_pos (by norm_num)
  have habs40 : |(40 : ℚ)| = 40 := abs_of_pos (by norm_num)
  refine ⟨?_, ?_, ?_, ?_, ?_, ?_⟩
  · simp only [Part002.handleEnd1D]
    by_cases hc : |dy| < |dx| ∧ 50 < |dx|
    · by_cases hdx : 0 < dx <;> simp [hc, hdx]
    · simp only [hc, if_false, ne_eq, not_true_eq_false, false_iff, not_and]
      intro h1 h2
      exact hc ⟨h2, h1⟩
  · simp only [Part002.handleEnd1D]
    by_cases hc : |dy| < |dx| ∧ 50 < |dx|
    · by_cases hdx : 0 < dx
      · simp [hc, hdx]
      · simp [hc, hdx]
    · simp [hc]
      intro h1 h2
      exact absurd ⟨h2, h1⟩ hc
  · simp only [Part002.handleEnd1D]
    by_cases hc : |dy| < |dx| ∧ 50 < |dx|
    · have hne : dx ≠ 0 := by
        intro h0
        rw [h0, abs_zero] at hc
        exact absurd hc.2 (by norm_num)
      by_cases hdx : 0 < dx
      · simp [hc, hdx]
        exact le_of_lt hdx
      · have hlt : dx < 0 := lt_of_le_of_ne (not_lt.mp hdx) hne
        simp [hc, hdx, hlt]
    · simp [hc]
      intro h1 h2
      exact absurd ⟨h2, h1⟩ hc
  · simp only [Part002.handleEnd1D, IntroSlide.swipeDecision]
    by_cases hc : |dy| < |dx| ∧ 50 < |dx|
    · by_cases hdx : 0 < dx <;> simp [hc, hdx]
    · simp [hc]
  · simp only [Part002.handleEnd1D, habs60, abs_zero]
    norm_num
  · simp only [Part002.handleEnd1D, habs40, abs_zero]
    norm_num

/-! ## 2D commit decision (corrected) -/

/-- Claim C3 counterexample: in the `QuizApp` document-level tracker a drag
from the origin ending at offset (150, 150) has Euclidean length exceeding
the 200-unit threshold, yet the tracker does not signal advance — its commit
test is `|dx| > 200 || |dy| > 200`, not a Euclidean-distance test. -/
theorem euclidean_commit_cex :
    (200 : ℝ) < Real.sqrt ((150 : ℝ) ^ 2 + (150 : ℝ) ^ 2) ∧
    (QuizApp.handleEnd 150 150 (QuizApp.handleStart 0 0 ⟨false, 0, 0, 0, 0⟩)).2 = false := by
  constructor
  · rw [Real.lt_sqrt (by norm_num)]
    norm_num
  · have h150 : ¬ (200 : ℚ) < |150 - 0| := by
      rw [sub_zero, abs_of_pos (by norm_num : (0 : ℚ) < 150)]
      norm_num
    simp [QuizApp.handleEnd, QuizApp.handleStart, h150]
    norm_num

/-- Claim C3 amended: the Euclidean rule holds only for the `StackedCards`
tracker (threshold 100): it advances iff `sqrt(x² + y²) > 100`.  The
`QuizApp` document-level tracker instead advances iff `|dx| > 200` or
`|dy| > 200`. -/
theorem gesture2D_commit_rules (s : StackedCards.CardsDragState)
    (t : QuizApp.AppDragState) (x y : ℚ) :
    (s.isDragging = true →
      ((StackedCards.handlePointerEnd s).2 = true ↔
        (100 : ℝ) < Real.sqrt ((s.currentX : ℝ) ^ 2 + (s.currentY : ℝ) ^ 2))) ∧
    (t.isDragging = true →
      ((QuizApp.handleEnd x y t).2 = true ↔
        (200 < |x - t.startX| ∨ 200 < |y - t.startY|))) := by
  constructor
  · intro hs
    simp only [StackedCards.handlePointerEnd, hs, if_true, decide_eq_true_eq]
    rw [Real.lt_sqrt (by norm_num)]
    constructor
    · intro h
      exact_mod_cast h
    · intro h
      exact_mod_cast h
  · intro ht
    simp only [QuizApp.handleEnd, ht, if_true, decide_eq_true_eq]

theorem gesture2D_commit_rules_witness :
    cardsW.isDragging = true ∧ appW.isDragging = true ∧
    ((StackedCards.handlePointerEnd cardsW).2 = true ↔
      (100 : ℝ) < Real.sqrt ((cardsW.currentX : ℝ) ^ 2 + (cardsW.currentY : ℝ) ^ 2)) ∧
    ((QuizApp.handleEnd 300 0 appW).2 = true ↔
      (200 < |(300 : ℚ) - appW.startX| ∨ 200 < |(0 : ℚ) - appW.startY|)) :=
  ⟨rfl, rfl, (gesture2D_commit_rules cardsW appW 300 0).1 rfl,
    (gesture2D_commit_rules cardsW appW 300 0).2 rfl⟩

/-! ## Intro-row handling (corrected) -/

/-- Claim C7 counterexample: two intro rows `["intro","A"]`, `["intro","B"]`.
The code retains the LAST intro row (B) as the designated intro record, not
the first, and the earlier intro row is dropped: the main pool stays empty. -/
theorem intro_first_retained_cex :
    (processRows [["intro", "A"], ["intro", "B"]]).1 =
      some { question := "B", category := "intro", depth := .light, type := "Frage" } ∧
    (processRows [["intro", "A"], ["intro", "B"]]).2 = [] ∧
    ({ question := "B", category := "intro", depth := .light, type := "Frage" } : Question) ≠
      { question := "A", category := "intro", depth := .light, type := "Frage" } := by
  refine ⟨by decide, by decide, by decide⟩

theorem lastOr_eq_getLast? (l : List Question) (d : Option Question) :
    lastOr l d = match l.getLast? with | some a => some a | none => d := by
  induction l generalizing d with
  | nil => rfl
  | cons a rest ih =>
    cases rest with
    | nil => simp [lastOr]
    | cons b t =>
      simp only [lastOr, List.getLast?_cons_cons]
      exact ih (some a)

theorem processRowsAux_spec (l : List (List String)) (intro : Option Question)
    (qs : List Question) :
    processRowsAux l intro qs =
      (lastOr ((l.filterMap rowToQuestion).filter isIntroQ) intro,
       qs ++ (l.filterMap rowToQuestion).filter fun q => !isIntroQ q) := by
  induction l generalizing intro qs with
  | nil => simp [processRowsAux, lastOr]
  | cons v rest ih =>
    simp only [processRowsAux, List.filterMap_cons]
    cases h : rowToQuestion v with
    | none => simp [ih]
    | some q =>
      by_cases hq : isIntroQ q
      · simp [hq, ih, lastOr]
      · simp [hq, ih]

/-- Claim C7 amended: for every parsed row sequence, the record of the LAST
intro-category row (if any) is retained as the designated intro record, and
no intro-category row is added to the main pool — earlier intro rows are
dropped; the main pool is exactly the usable non-intro rows in order. -/
theorem intro_last_retained (rows : List (List String)) :
    (processRows rows).1 =
      (((dataRows rows).filterMap rowToQuestion).filter isIntroQ).getLast? ∧
    (processRows rows).2 =
      ((dataRows rows).filterMap rowToQuestion).filter fun q => !isIntroQ q := by
  unfold processRows
  rw [processRowsAux_spec]
  refine ⟨?_, by simp⟩
  rw [lastOr_eq_getLast?]
  cases h : (((dataRows rows).filterMap rowToQuestion).filter isIntroQ).getLast? <;> simp

end IntimacyPlaybook
